import Mathlib

/-!
Shallow embedding of the PostgreSQL `NUMERIC` codec from
`src/diesel/src/pg/types/numeric.rs`: the conversion between `BigDecimal`
(sign, arbitrary-precision unscaled integer, decimal exponent) and the
structured wire value `PgNumeric` (sign tag, weight, scale, base-10000
digit list), together with proofs of the specified properties.

Modelling conventions:
* `BigInt`/`BigUint` become `Int`/`Nat` (arbitrary precision, exact).
* The Rust `scale as u16` cast on the `i64` exponent is modelled exactly as
  `(scale % 65536).toNat` (two's-complement truncation to 16 bits of an
  `i64` is the nonnegative remainder modulo 2^16).
* The Rust `(weight + 1) as usize` cast sign-extends and bit-casts, so a
  negative `weight + 1` becomes an index of at least 2^63; slicing
  `digits[index_of_decimal..]` then panics.  A panic is modelled as `none`.
* `digits.len() as i16` and the subsequent i16 subtractions and the i16
  increment `weight + 1` wrap in two's complement; `wrapI16` models that
  (release-mode) wrapping into `[-2^15, 2^15)`.  Consequently the weight
  computation wraps once the digit vector holds 2^15 or more entries, and
  the encoder then panics in the boundary slice.
* `Vec<i16>` digit entries are modelled as `Nat`; every digit the code
  produces or that a well-formed wire value carries lies in `[0, 9999]`.
-/

/-- The wire value `PgNumeric` (from `pg::data_types`): a sign-tagged record
of `weight : i16`, `scale : u16` and base-10000 `digits : Vec<i16>`
(most-significant first), or `NaN`. -/
inductive PgNumeric where
  | Positive (weight : Int) (scale : Nat) (digits : List Nat)
  | Negative (weight : Int) (scale : Nat) (digits : List Nat)
  | NaN
deriving DecidableEq

/-- A `BigDecimal` as exposed by `as_bigint_and_exponent()`: the unscaled
`BigInt` together with the `i64` exponent (`scale`).  The represented value
is `intVal * 10 ^ (-scale)`; the sign lives in `intVal`. -/
structure BigDecimal where
  intVal : Int
  scale : Int
deriving DecidableEq

/-- `struct ToBase10000` iterator, collected: base-10000 digits of a
non-negative big integer, least-significant first, by repeated
`div_rem(10000)` until the quotient is zero.  Zero yields `[0]`. -/
def toBase10000 (v : Nat) : List Nat :=
  if h : v / 10000 = 0 then [v % 10000]
  else v % 10000 :: toBase10000 (v / 10000)
termination_by v
decreasing_by
  exact Nat.div_lt_self (by omega) (by norm_num)

/-- The padding loop `for _ in 0..(4 - scale % 4) { integer = integer * 10 }`
that aligns the decimal point with a base-10000 digit boundary. -/
def padMagnitude (integer : Nat) (scale : Nat) : Nat :=
  (List.range (4 - scale % 4)).foldl (fun acc _ => acc * 10) integer

/-- Lines 55-61 of the encoder: count the trailing zero digits of the slice
`digits[index_of_decimal..]` and truncate the digit vector by that many. -/
def trimDigits (digits : List Nat) (index_of_decimal : Nat) : List Nat :=
  let unneccessary_zeroes :=
    ((digits.drop index_of_decimal).reverse.takeWhile (fun i => i == 0)).length
  digits.take (digits.length - unneccessary_zeroes)

/-- Two's-complement wrap of an integer into the `i16` range
`[-32768, 32767]`, the value produced by Rust's wrapping i16 arithmetic and
by `as i16` casts. -/
def wrapI16 (x : Int) : Int :=
  (x + 32768) % 65536 - 32768

/-- `impl From<&BigDecimal> for PgNumeric` (lines 37-77).  The weight is
`digits.len() as i16 - digits_after_decimal as i16 - 1` in wrapping i16
arithmetic, and `index_of_decimal` is the i16 value `weight + 1` cast to
`usize`.  When that i16 value is negative the cast sign-extends it to an
index of at least 2^64 - 2^15, which exceeds the length of every Rust
vector (at most isize::MAX elements), so the slice
`digits[index_of_decimal..]` panics: that is the `none` branch.  When it is
non-negative it is at most 32767 and always within bounds (the weight
itself was wrapped from `len - dac - 1` with `1 ≤ dac ≤ 16384`), so the
slice succeeds. -/
def PgNumeric.fromBigDecimal (decimal : BigDecimal) : Option PgNumeric :=
  let scale : Nat := (decimal.scale % 65536).toNat
  let integer : Nat := padMagnitude decimal.intVal.natAbs scale
  let digits : List Nat := (toBase10000 integer).reverse
  let digits_after_decimal : Nat := scale / 4 + 1
  let weight : Int :=
    wrapI16 ((digits.length : Int) - (digits_after_decimal : Int) - 1)
  if wrapI16 (weight + 1) < 0 then none
  else
    let index_of_decimal : Nat := (wrapI16 (weight + 1)).toNat
    let digits : List Nat := trimDigits digits index_of_decimal
    some (if 0 < decimal.intVal then .Positive weight scale digits
          else if decimal.intVal < 0 then .Negative weight scale digits
          else .Positive 0 0 [0])

/-- The shared tail of the decoder after destructuring sign, weight and
digits: accumulate `result = result * 10000 + digit` over the digits, then
build `BigDecimal::new(sign * result, -(4 * (weight - count + 1)))`. -/
def decodeDigits (sign : Int) (weight : Int) (digits : List Nat) : BigDecimal :=
  let result : Nat := digits.foldl (fun result digit => result * 10000 + digit) 0
  let count : Int := (digits.length : Int)
  let correction_exp : Int := 4 * (weight - count + 1)
  ⟨sign * (result : Int), -correction_exp⟩

/-- `impl FromSql<types::Numeric, Pg> for BigDecimal` (lines 92-112),
starting from the already-parsed structured wire value. -/
def BigDecimal.from_sql : PgNumeric → Except String BigDecimal
  | .Positive weight _scale digits => .ok (decodeDigits 1 weight digits)
  | .Negative weight _scale digits => .ok (decodeDigits (-1) weight digits)
  | .NaN => .error "NaN is not (yet) supported in BigDecimal"

/-- Swap the `Positive`/`Negative` tag, keeping weight, scale and digits. -/
def PgNumeric.flipSign : PgNumeric → PgNumeric
  | .Positive w s d => .Negative w s d
  | .Negative w s d => .Positive w s d
  | .NaN => .NaN

/-- The padding loop multiplies by 10 once per step, so it computes
`integer * 10 ^ (4 - scale % 4)`. -/
theorem padMagnitude_eq (integer scale : Nat) :
    padMagnitude integer scale = integer * 10 ^ (4 - scale % 4) := by
  unfold padMagnitude
  generalize 4 - scale % 4 = k
  induction k with
  | zero => simp
  | succ n ih =>
    rw [List.range_succ, List.foldl_append, ih, pow_succ]
    simp [List.foldl]
    ring

/-! ### Properties of the digit iterator -/

/-- `toBase10000` computes the little-endian base-10000 digits of its
argument, with `[0]` for zero. -/
theorem toBase10000_eq_digits (v : Nat) :
    toBase10000 v = if v = 0 then [0] else Nat.digits 10000 v := by
  induction v using Nat.strong_induction_on with
  | _ v ih =>
    rw [toBase10000]
    by_cases h0 : v = 0
    · subst h0; norm_num
    · rw [if_neg h0,
        Nat.digits_def' (by norm_num : (1 : Nat) < 10000) (Nat.pos_of_ne_zero h0)]
      by_cases hd : v / 10000 = 0
      · rw [dif_pos hd, hd]
        simp
      · rw [dif_neg hd,
          ih (v / 10000) (Nat.div_lt_self (Nat.pos_of_ne_zero h0) (by norm_num)),
          if_neg hd]

theorem toBase10000_ne_nil (v : Nat) : toBase10000 v ≠ [] := by
  rw [toBase10000_eq_digits]
  split
  · simp
  · exact Nat.digits_ne_nil_iff_ne_zero.mpr (by assumption)

theorem mem_toBase10000_lt (v x : Nat) (hx : x ∈ toBase10000 v) : x < 10000 := by
  rw [toBase10000_eq_digits] at hx
  split at hx
  · simp only [List.mem_singleton] at hx
    omega
  · exact Nat.digits_lt_base (by norm_num) hx

/-- The most significant digit of a nonzero value is nonzero. -/
theorem toBase10000_getLast_ne_zero (v x : Nat) (hv : v ≠ 0)
    (hx : (toBase10000 v).getLast? = some x) : x ≠ 0 := by
  rw [toBase10000_eq_digits, if_neg hv] at hx
  have hne : Nat.digits 10000 v ≠ [] := Nat.digits_ne_nil_iff_ne_zero.mpr hv
  rw [List.getLast?_eq_getLast _ hne] at hx
  have := Nat.getLast_digit_ne_zero 10000 hv
  simpa [← Option.some_inj.mp hx] using this

/-- Removing the trailing zeros of `s` keeps the prefix of `s` up to and
including its last nonzero entry. -/
theorem take_sub_trailing_zeroes (s : List Nat) :
    s.take (s.length - (s.reverse.takeWhile (fun x => x == 0)).length) =
      (s.reverse.dropWhile (fun x => x == 0)).reverse := by
  have hsplit : s.reverse.takeWhile (fun x => x == 0) ++
      s.reverse.dropWhile (fun x => x == 0) = s.reverse :=
    List.takeWhile_append_dropWhile ..
  have hlen : (s.reverse.takeWhile (fun x => x == 0)).length +
      (s.reverse.dropWhile (fun x => x == 0)).length = s.length := by
    have h2 := congrArg List.length hsplit
    rw [List.length_append, List.length_reverse] at h2
    exact h2
  have hdecomp : s = (s.reverse.dropWhile (fun x => x == 0)).reverse ++
      (s.reverse.takeWhile (fun x => x == 0)).reverse := by
    rw [← List.reverse_append, hsplit, List.reverse_reverse]
  set n := s.length - (s.reverse.takeWhile (fun x => x == 0)).length with hn
  conv_lhs => rw [hdecomp]
  exact List.take_left' (by rw [List.length_reverse]; omega)

/-- Trim step on an explicit split at the boundary: everything before the
boundary is kept, and the slice loses exactly its trailing zeros. -/
theorem trimDigits_append (t s : List Nat) :
    trimDigits (t ++ s) t.length =
      t ++ (s.reverse.dropWhile (fun x => x == 0)).reverse := by
  simp only [trimDigits]
  rw [List.drop_left, List.length_append]
  have hz : (s.reverse.takeWhile (fun x => x == 0)).length ≤ s.length := by
    have h1 := (List.takeWhile_prefix (l := s.reverse) (fun x => x == 0)).length_le
    simpa using h1
  rw [show t.length + s.length - (s.reverse.takeWhile (fun x => x == 0)).length =
      t.length + (s.length - (s.reverse.takeWhile (fun x => x == 0)).length)
    from by omega]
  rw [List.take_append_eq_append_take,
    List.take_of_length_le (by omega : t.length ≤ t.length + _),
    Nat.add_sub_cancel_left]
  rw [take_sub_trailing_zeroes s]

/-- The trim of the digit vector splits as: everything before the decimal
boundary is kept, and the fractional part loses exactly its trailing
zeros. -/
theorem trimDigits_eq (l : List Nat) (i : Nat) (hi : i ≤ l.length) :
    trimDigits l i =
      l.take i ++ ((l.drop i).reverse.dropWhile (fun x => x == 0)).reverse := by
  have h2 : (l.take i).length = i := by
    rw [List.length_take]
    omega
  calc trimDigits l i = trimDigits (l.take i ++ l.drop i) (l.take i).length := by
        rw [List.take_append_drop, h2]
    _ = l.take i ++ ((l.drop i).reverse.dropWhile (fun x => x == 0)).reverse :=
        trimDigits_append _ _

/-- After dropping trailing zeros, the last remaining entry is nonzero. -/
theorem dropTrailing_getLast_ne_zero (s : List Nat) (x : Nat)
    (hx : ((s.reverse.dropWhile (fun y => y == 0)).reverse).getLast? = some x) :
    x ≠ 0 := by
  rw [List.getLast?_reverse] at hx
  have h := List.head?_dropWhile_not (fun y => y == 0) s.reverse
  rw [hx] at h
  simpa using h

/-- A list whose head is nonzero does not become empty when its trailing
zeros are dropped. -/
theorem dropTrailing_ne_nil (l : List Nat) (x : Nat) (hx : l.head? = some x)
    (hxne : x ≠ 0) :
    (l.reverse.dropWhile (fun y => y == 0)).reverse ≠ [] := by
  intro hnil
  rw [List.reverse_eq_nil_iff, List.dropWhile_eq_nil_iff] at hnil
  have hxmem : x ∈ l.reverse := List.mem_reverse.mpr (List.mem_of_mem_head? hx)
  have := hnil x hxmem
  simp at this
  exact hxne this

-- Sanity checks against the repository's literal test vectors.
example : PgNumeric.fromBigDecimal ⟨1, 0⟩ =
    some (.Positive 0 0 [1]) := by
  simp [PgNumeric.fromBigDecimal, wrapI16, padMagnitude_eq, toBase10000, trimDigits]
example : PgNumeric.fromBigDecimal ⟨10, 0⟩ =
    some (.Positive 0 0 [10]) := by
  simp [PgNumeric.fromBigDecimal, wrapI16, padMagnitude_eq, toBase10000, trimDigits]
example : PgNumeric.fromBigDecimal ⟨10000, 0⟩ =
    some (.Positive 1 0 [1, 0]) := by
  simp [PgNumeric.fromBigDecimal, wrapI16, padMagnitude_eq, toBase10000, trimDigits]
example : PgNumeric.fromBigDecimal ⟨10001, 0⟩ =
    some (.Positive 1 0 [1, 1]) := by
  simp [PgNumeric.fromBigDecimal, wrapI16, padMagnitude_eq, toBase10000, trimDigits]
example : PgNumeric.fromBigDecimal ⟨100000000, 0⟩ =
    some (.Positive 2 0 [1, 0, 0]) := by
  simp [PgNumeric.fromBigDecimal, wrapI16, padMagnitude_eq, toBase10000, trimDigits]
example : PgNumeric.fromBigDecimal ⟨10, 1⟩ =
    some (.Positive 0 1 [1]) := by
  simp [PgNumeric.fromBigDecimal, wrapI16, padMagnitude_eq, toBase10000, trimDigits]
example : PgNumeric.fromBigDecimal ⟨11, 1⟩ =
    some (.Positive 0 1 [1, 1000]) := by
  simp [PgNumeric.fromBigDecimal, wrapI16, padMagnitude_eq, toBase10000, trimDigits]
example : PgNumeric.fromBigDecimal ⟨110, 2⟩ =
    some (.Positive 0 2 [1, 1000]) := by
  simp [PgNumeric.fromBigDecimal, wrapI16, padMagnitude_eq, toBase10000, trimDigits]
example : PgNumeric.fromBigDecimal ⟨1000000000001, 4⟩ =
    some (.Positive 2 4 [1, 0, 0, 1]) := by
  simp [PgNumeric.fromBigDecimal, wrapI16, padMagnitude_eq, toBase10000, trimDigits]
example : PgNumeric.fromBigDecimal ⟨1, 1⟩ =
    some (.Positive (-1) 1 [1000]) := by
  simp [PgNumeric.fromBigDecimal, wrapI16, padMagnitude_eq, toBase10000, trimDigits]
example : PgNumeric.fromBigDecimal ⟨123456, 3⟩ =
    some (.Positive 0 3 [123, 4560]) := by
  simp [PgNumeric.fromBigDecimal, wrapI16, padMagnitude_eq, toBase10000, trimDigits]
example : PgNumeric.fromBigDecimal ⟨-123456, 3⟩ =
    some (.Negative 0 3 [123, 4560]) := by
  simp [PgNumeric.fromBigDecimal, wrapI16, padMagnitude_eq, toBase10000, trimDigits]

/-! ### Claim theorems -/

/-- Claim C1 (refuted by the code, supporting the spec's stated totality):
the encoder is not total.  For the input `0.00001` (unscaled magnitude 1,
scale 5) the computed weight is `-2`, so `index_of_decimal = (weight + 1) as
usize` wraps the negative value `-1` and the slice `digits[index_of_decimal..]`
panics, modelled here as `none`.  Inputs with scale below 5 still succeed. -/
theorem encode_not_total_small_magnitude :
    PgNumeric.fromBigDecimal ⟨1, 5⟩ = none ∧
    PgNumeric.fromBigDecimal ⟨1, 4⟩ = some (.Positive (-1) 4 [1]) := by
  constructor
  · simp [PgNumeric.fromBigDecimal, wrapI16, padMagnitude_eq, toBase10000, trimDigits]
  · simp [PgNumeric.fromBigDecimal, wrapI16, padMagnitude_eq, toBase10000, trimDigits]

/-- Claim C2 (refuted by the code, supporting the spec's canonical-zero
rule): encoding the zero value with scale 4 (the decimal `0.0000`) panics in
the boundary slice before the sign match can return the canonical zero form;
zero with scale up to 3 does produce the canonical form. -/
theorem encode_zero_scale_four_panics :
    PgNumeric.fromBigDecimal ⟨0, 4⟩ = none ∧
    PgNumeric.fromBigDecimal ⟨0, 3⟩ = some (.Positive 0 0 [0]) ∧
    PgNumeric.fromBigDecimal ⟨0, 0⟩ = some (.Positive 0 0 [0]) := by
  refine ⟨?_, ?_, ?_⟩
  · simp [PgNumeric.fromBigDecimal, wrapI16, padMagnitude_eq, toBase10000, trimDigits]
  · simp [PgNumeric.fromBigDecimal, wrapI16, padMagnitude_eq, toBase10000, trimDigits]
  · simp [PgNumeric.fromBigDecimal, wrapI16, padMagnitude_eq, toBase10000, trimDigits]

/-- Claim C4: decoding fails exactly on `NaN` (with the unsupported-value
error), and succeeds with a decimal value on every `Positive` or `Negative`
wire value. -/
theorem decode_fails_iff_nan :
    BigDecimal.from_sql .NaN = .error "NaN is not (yet) supported in BigDecimal" ∧
    ∀ pn : PgNumeric,
      (∃ d : BigDecimal, BigDecimal.from_sql pn = .ok d) ↔ pn ≠ .NaN := by
  refine ⟨rfl, fun pn => ⟨?_, ?_⟩⟩
  · rintro ⟨d, hd⟩ rfl
    simp [BigDecimal.from_sql] at hd
  · intro hne
    cases pn with
    | Positive w s ds => exact ⟨_, rfl⟩
    | Negative w s ds => exact ⟨_, rfl⟩
    | NaN => exact absurd rfl hne

/-- Claim C6: the padding loop multiplies the magnitude by 10 exactly
`4 - scale % 4` times; that count is always at least 1, and when the scale
is already a multiple of 4 the loop runs 4 times, i.e. multiplies by
`10 ^ 4`, not zero times. -/
theorem pad_steps_count (m scale : Nat) :
    padMagnitude m scale = m * 10 ^ (4 - scale % 4) ∧
    0 < 4 - scale % 4 ∧
    (scale % 4 = 0 → padMagnitude m scale = m * 10 ^ 4) := by
  refine ⟨padMagnitude_eq m scale, by omega, fun h => ?_⟩
  rw [padMagnitude_eq, h]

/-- Witness for the hypothesis of `pad_steps_count` at scale 8 (a multiple
of 4): the padding multiplies by `10 ^ 4`. -/
theorem pad_steps_count_witness :
    padMagnitude 7 8 = 7 * 10 ^ (4 - 8 % 4) ∧ padMagnitude 7 8 = 7 * 10 ^ 4 :=
  ⟨(pad_steps_count 7 8).1, (pad_steps_count 7 8).2.2 rfl⟩

/-- Claim C7: decoding a `Positive` or `Negative` wire value accumulates the
digits most-significant-first as `acc = acc * 10000 + digit`, applies the
tag's sign to the magnitude, and sets the decimal exponent (the `BigDecimal`
scale) to `-(4 * (weight - count + 1))`. -/
theorem decode_digit_accumulation (w : Int) (s : Nat) (ds : List Nat) :
    BigDecimal.from_sql (.Positive w s ds) =
      .ok ⟨((ds.foldl (fun acc digit => acc * 10000 + digit) 0 : Nat) : Int),
        -(4 * (w - (ds.length : Int) + 1))⟩ ∧
    BigDecimal.from_sql (.Negative w s ds) =
      .ok ⟨-((ds.foldl (fun acc digit => acc * 10000 + digit) 0 : Nat) : Int),
        -(4 * (w - (ds.length : Int) + 1))⟩ := by
  constructor
  · simp [BigDecimal.from_sql, decodeDigits]
  · simp [BigDecimal.from_sql, decodeDigits]

/-- Claim C8: the decoder never consults the `scale` field: two wire values
agreeing on tag, weight and digits decode to equal decimal values no matter
their scales. -/
theorem decode_ignores_scale (w : Int) (s1 s2 : Nat) (ds : List Nat) :
    BigDecimal.from_sql (.Positive w s1 ds) = BigDecimal.from_sql (.Positive w s2 ds) ∧
    BigDecimal.from_sql (.Negative w s1 ds) = BigDecimal.from_sql (.Negative w s2 ds) :=
  ⟨rfl, rfl⟩

/-! ### Inversion of a successful encode -/

/-- Characterization of a successful encode: either the input is zero and
the canonical zero form is returned, or the output's weight, scale and
trimmed digits are the ones computed from the padded magnitude. -/
theorem fromBigDecimal_some_inv (d : BigDecimal) (pn : PgNumeric)
    (h : PgNumeric.fromBigDecimal d = some pn) :
    (d.intVal = 0 ∧ pn = .Positive 0 0 [0]) ∨
    (d.intVal ≠ 0 ∧
      ∃ digits : List Nat, ∃ weight : Int,
        digits = (toBase10000 (padMagnitude d.intVal.natAbs
          ((d.scale % 65536).toNat))).reverse ∧
        weight = wrapI16 ((digits.length : Int) -
          ((((d.scale % 65536).toNat) / 4 + 1 : Nat) : Int) - 1) ∧
        0 ≤ wrapI16 (weight + 1) ∧
        ((0 < d.intVal ∧ pn = .Positive weight ((d.scale % 65536).toNat)
            (trimDigits digits (wrapI16 (weight + 1)).toNat)) ∨
         (d.intVal < 0 ∧ pn = .Negative weight ((d.scale % 65536).toNat)
            (trimDigits digits (wrapI16 (weight + 1)).toNat)))) := by
  simp only [PgNumeric.fromBigDecimal] at h
  split at h
  · exact absurd h (by simp)
  · rename_i hw
    rw [Option.some_inj] at h
    rcases lt_trichotomy d.intVal 0 with hneg | hzero | hpos
    · right
      refine ⟨by omega, _, _, rfl, rfl, by omega, Or.inr ⟨hneg, ?_⟩⟩
      rw [← h, if_neg (by omega), if_pos hneg]
    · left
      refine ⟨hzero, ?_⟩
      rw [← h, if_neg (by omega), if_neg (by omega)]
    · right
      refine ⟨by omega, _, _, rfl, rfl, by omega, Or.inl ⟨hpos, ?_⟩⟩
      rw [← h, if_pos hpos]

/-- Claim C10: the encoder only ever sees the input exponent through its
truncation to 16 bits (`scale as u16`): the whole encoding is invariant
under replacing the exponent by its remainder modulo 2^16, and for nonzero
inputs the emitted scale field equals exactly that remainder. -/
theorem encode_uses_exponent_mod_u16 (i s : Int) :
    PgNumeric.fromBigDecimal ⟨i, s⟩ = PgNumeric.fromBigDecimal ⟨i, s % 65536⟩ ∧
    ∀ (w : Int) (sc : Nat) (ds : List Nat), i ≠ 0 →
      (PgNumeric.fromBigDecimal ⟨i, s⟩ = some (.Positive w sc ds) ∨
       PgNumeric.fromBigDecimal ⟨i, s⟩ = some (.Negative w sc ds)) →
      (sc : Int) = s % 65536 := by
  constructor
  · simp only [PgNumeric.fromBigDecimal]
    rw [Int.emod_emod_of_dvd s dvd_rfl]
  · intro w sc ds hi h
    have hto : (((s % 65536).toNat : Int)) = s % 65536 :=
      Int.toNat_of_nonneg (Int.emod_nonneg s (by norm_num))
    rcases h with h | h <;>
      rcases fromBigDecimal_some_inv _ _ h with ⟨hz, _⟩ | ⟨_, _, _, _, _, _, hcase⟩
    · exact absurd hz hi
    · rcases hcase with ⟨_, hpn⟩ | ⟨_, hpn⟩
      · rw [PgNumeric.Positive.injEq] at hpn
        rw [hpn.2.1]
        exact hto
      · exact absurd hpn (by simp)
    · exact absurd hz hi
    · rcases hcase with ⟨_, hpn⟩ | ⟨_, hpn⟩
      · exact absurd hpn (by simp)
      · rw [PgNumeric.Negative.injEq] at hpn
        rw [hpn.2.1]
        exact hto

/-- Witness for `encode_uses_exponent_mod_u16`: at unscaled value 1 with
exponent 65537, the encoding agrees with exponent 1 and the emitted scale
is `65537 % 65536 = 1`. -/
theorem encode_uses_exponent_mod_u16_witness :
    PgNumeric.fromBigDecimal ⟨1, 65537⟩ = PgNumeric.fromBigDecimal ⟨1, 1⟩ ∧
    ((1 : Nat) : Int) = 65537 % 65536 :=
  ⟨(encode_uses_exponent_mod_u16 1 65537).1,
   (encode_uses_exponent_mod_u16 1 65537).2 (-1) 1 [1000] (by norm_num)
     (Or.inl (by simp [PgNumeric.fromBigDecimal, wrapI16, padMagnitude_eq, toBase10000,
       trimDigits]))⟩

/-- Claim C5: for a nonzero input, negating the value flips only the
`Positive`/`Negative` tag of the encoding; weight, scale and digits are
unchanged (and a panic on one sign is a panic on the other). -/
theorem encode_negation_flips_tag (i s : Int) (hi : i ≠ 0) :
    PgNumeric.fromBigDecimal ⟨-i, s⟩ =
      (PgNumeric.fromBigDecimal ⟨i, s⟩).map PgNumeric.flipSign := by
  simp only [PgNumeric.fromBigDecimal, Int.natAbs_neg]
  by_cases hw : wrapI16 (wrapI16 (((toBase10000 (padMagnitude i.natAbs
        ((s % 65536).toNat))).reverse.length : Int) -
      ((((s % 65536).toNat) / 4 + 1 : Nat) : Int) - 1) + 1) < 0
  · rw [if_pos hw, if_pos hw]
    rfl
  · rw [if_neg hw, if_neg hw]
    rcases hi.lt_or_lt with h | h
    · rw [if_pos (by omega : (0 : Int) < -i), if_neg (by omega : ¬ (0 : Int) < i),
        if_pos h]
      rfl
    · rw [if_neg (by omega : ¬ (0 : Int) < -i), if_pos (by omega : (-i : Int) < 0),
        if_pos h]
      rfl

/-- Witness for `encode_negation_flips_tag` at `123.456`: the encodings of
`±123.456` differ only in the tag. -/
theorem encode_negation_flips_tag_witness :
    PgNumeric.fromBigDecimal ⟨-123456, 3⟩ =
      (PgNumeric.fromBigDecimal ⟨123456, 3⟩).map PgNumeric.flipSign :=
  encode_negation_flips_tag 123456 3 (by norm_num)

/-! ### Round trip on non-negative integers -/

/-- Invariants of the trimmed digit vector of a nonzero padded magnitude
`m`, sliced at boundary `i`: digits are base-10000 digits, the result is
non-empty, and a last digit sitting at or after the boundary is nonzero. -/
theorem trimmed_digits_invariants (m i : Nat) (hm : m ≠ 0)
    (hi : i < (toBase10000 m).length) :
    (∀ x ∈ trimDigits (toBase10000 m).reverse i, x ≤ 9999) ∧
    trimDigits (toBase10000 m).reverse i ≠ [] ∧
    (∀ x : Nat, (trimDigits (toBase10000 m).reverse i).getLast? = some x →
      i + 1 ≤ (trimDigits (toBase10000 m).reverse i).length → x ≠ 0) := by
  set l := (toBase10000 m).reverse with hl
  have hlen : l.length = (toBase10000 m).length := List.length_reverse _
  have hile : i ≤ l.length := by omega
  have heq := trimDigits_eq l i hile
  have hhead : ∀ x : Nat, l.head? = some x → x ≠ 0 := by
    intro x hx
    rw [hl, List.head?_reverse] at hx
    exact toBase10000_getLast_ne_zero m x hm hx
  set dtz := ((l.drop i).reverse.dropWhile (fun x => x == 0)).reverse with hdtz
  have hlen_take : (l.take i).length = i := by
    rw [List.length_take]
    omega
  refine ⟨?_, ?_, ?_⟩
  · intro x hx
    rw [heq] at hx
    have hx' : x ∈ l := by
      rcases List.mem_append.mp hx with hx1 | hx2
      · exact List.take_subset _ _ hx1
      · rw [hdtz, List.mem_reverse] at hx2
        have h2 : x ∈ (l.drop i).reverse := List.dropWhile_subset _ hx2
        rw [List.mem_reverse] at h2
        exact List.drop_subset _ _ h2
    rw [hl, List.mem_reverse] at hx'
    have := mem_toBase10000_lt m x hx'
    omega
  · rw [heq]
    rcases Nat.eq_zero_or_pos i with hi0 | hipos
    · subst hi0
      rw [List.take_zero, List.nil_append, hdtz, List.drop_zero]
      have hlne : l ≠ [] := by
        rw [hl]
        simpa using toBase10000_ne_nil m
      have hx : l.head? = some (l.head hlne) := List.head?_eq_head hlne
      exact dropTrailing_ne_nil l _ hx (hhead _ hx)
    · intro hnil
      have hzero : (l.take i ++ dtz).length = 0 := by
        rw [hnil]
        rfl
      rw [List.length_append, hlen_take] at hzero
      omega
  · intro x hx hcond
    rw [heq] at hx hcond
    rw [List.length_append, hlen_take] at hcond
    have hdtzne : dtz ≠ [] := by
      intro hnil
      rw [hnil] at hcond
      simp at hcond
    rw [List.getLast?_append_of_ne_nil _ hdtzne] at hx
    rw [hdtz] at hx
    exact dropTrailing_getLast_ne_zero (l.drop i) x hx

/-- Claim C9: every `Positive` or `Negative` wire value the encoder
produces has each digit in `[0, 9999]`, a non-empty digit list, and a
nonzero last digit whenever the last digit's position index is at or after
`weight + 1` (trailing zeros survive only strictly inside the integer
part). -/
theorem encode_output_digit_invariants (d : BigDecimal) (w : Int) (sc : Nat)
    (ds : List Nat)
    (h : PgNumeric.fromBigDecimal d = some (.Positive w sc ds) ∨
         PgNumeric.fromBigDecimal d = some (.Negative w sc ds)) :
    (∀ x ∈ ds, x ≤ 9999) ∧ ds ≠ [] ∧
      (∀ x : Nat, ds.getLast? = some x → w + 1 ≤ (ds.length : Int) - 1 →
        x ≠ 0) := by
  rcases h with h | h
  all_goals
    rcases fromBigDecimal_some_inv d _ h with ⟨hz, hcanon⟩ |
      ⟨hnz, digits, weight, hdig, hwt, hge, hcase⟩
  · -- Positive tag, zero input: canonical zero form
    rw [PgNumeric.Positive.injEq] at hcanon
    obtain ⟨hw, hsc, hds⟩ := hcanon
    subst hds
    subst hw
    refine ⟨by simp, by simp, ?_⟩
    intro x hx hcond
    exfalso
    simp at hcond
  · -- Positive tag, nonzero input
    rcases hcase with ⟨hpos, hpn⟩ | ⟨hneg, hpn⟩
    · rw [PgNumeric.Positive.injEq] at hpn
      obtain ⟨hw, hsc, hds⟩ := hpn
      subst hds
      subst hw
      subst hdig
      rw [List.length_reverse] at hwt
      have hm : padMagnitude d.intVal.natAbs ((d.scale % 65536).toNat) ≠ 0 := by
        rw [padMagnitude_eq]
        exact Nat.mul_ne_zero (Int.natAbs_ne_zero.mpr hnz)
          (pow_ne_zero _ (by norm_num))
      have hLpos : 0 < (toBase10000 (padMagnitude d.intVal.natAbs
          ((d.scale % 65536).toNat))).length :=
        List.length_pos.mpr (toBase10000_ne_nil _)
      simp only [wrapI16] at hwt hge
      have hiInt : (((wrapI16 (w + 1)).toNat : Nat) : Int) = w + 1 := by
        simp only [wrapI16]
        omega
      have hi : (wrapI16 (w + 1)).toNat < (toBase10000
          (padMagnitude d.intVal.natAbs ((d.scale % 65536).toNat))).length := by
        simp only [wrapI16]
        omega
      have key := trimmed_digits_invariants _ _ hm hi
      refine ⟨key.1, key.2.1, ?_⟩
      intro x hx hcond
      refine key.2.2 x hx ?_
      omega
    · exact absurd hpn (by simp)
  · -- Negative tag, zero input: impossible
    exact absurd hcanon (by simp)
  · -- Negative tag, nonzero input
    rcases hcase with ⟨hpos, hpn⟩ | ⟨hneg, hpn⟩
    · exact absurd hpn (by simp)
    · rw [PgNumeric.Negative.injEq] at hpn
      obtain ⟨hw, hsc, hds⟩ := hpn
      subst hds
      subst hw
      subst hdig
      rw [List.length_reverse] at hwt
      have hm : padMagnitude d.intVal.natAbs ((d.scale % 65536).toNat) ≠ 0 := by
        rw [padMagnitude_eq]
        exact Nat.mul_ne_zero (Int.natAbs_ne_zero.mpr hnz)
          (pow_ne_zero _ (by norm_num))
      have hLpos : 0 < (toBase10000 (padMagnitude d.intVal.natAbs
          ((d.scale % 65536).toNat))).length :=
        List.length_pos.mpr (toBase10000_ne_nil _)
      simp only [wrapI16] at hwt hge
      have hiInt : (((wrapI16 (w + 1)).toNat : Nat) : Int) = w + 1 := by
        simp only [wrapI16]
        omega
      have hi : (wrapI16 (w + 1)).toNat < (toBase10000
          (padMagnitude d.intVal.natAbs ((d.scale % 65536).toNat))).length := by
        simp only [wrapI16]
        omega
      have key := trimmed_digits_invariants _ _ hm hi
      refine ⟨key.1, key.2.1, ?_⟩
      intro x hx hcond
      refine key.2.2 x hx ?_
      omega

/-- Witness for `encode_output_digit_invariants` at `123.456`: the encoded
digits `[123, 4560]` are in range, non-empty, and end in the nonzero digit
4560 which sits at position 1 at the boundary `weight + 1 = 1`. -/
theorem encode_output_digit_invariants_witness :
    (∀ x ∈ [123, 4560], x ≤ 9999) ∧ ([123, 4560] : List Nat) ≠ [] ∧
      (∀ x : Nat, ([123, 4560] : List Nat).getLast? = some x →
        (0 : Int) + 1 ≤ (([123, 4560] : List Nat).length : Int) - 1 →
        x ≠ 0) :=
  encode_output_digit_invariants ⟨123456, 3⟩ 0 3 [123, 4560]
    (Or.inl (by simp [PgNumeric.fromBigDecimal, wrapI16, padMagnitude_eq, toBase10000,
      trimDigits]))

/-- Witness for `decode_fails_iff_nan`: decoding `NaN` yields the error and
decoding a concrete `Positive` value succeeds. -/
theorem decode_fails_iff_nan_witness :
    BigDecimal.from_sql .NaN = .error "NaN is not (yet) supported in BigDecimal" ∧
    (∃ d : BigDecimal, BigDecimal.from_sql (.Positive 0 0 [1]) = .ok d) :=
  ⟨decode_fails_iff_nan.1,
   (decode_fails_iff_nan.2 (.Positive 0 0 [1])).mpr (by simp)⟩
